import Mathlib

/-!
Verification of folly's `RequestContext` (folly/io/async/Request.cpp).

The shallow embedding models:
  * `RequestData` objects by their identity (`id`, standing for the object's
    address) and their fixed `hasCallback()` capability (`hasCb`);
  * the per-context `State` (`requestData_` map from string key to a possibly
    null shared pointer, plus the `callbackData_` set of raw pointers, kept
    sorted as `std::set` does);
  * the lifecycle callbacks `onSet` / `onUnset` as an event trace, with an
    `install` marker for the moment the current-context slot is written;
  * the reference-count protocol of `RequestData::constructPtr` /
    `RequestData::DestructPtr` as a counter automaton over acquire/release
    traces.

Locking, logging (`LOG_FIRST_N`) and thread-locality are out of the trace:
the embedding captures the sequential observable behaviour of each operation.
-/

namespace Folly

/-- A `RequestData` object: `id` models the object's address (its identity in
`callbackData_`, which `std::set<RequestData*>` orders by pointer), `hasCb`
models the fixed `hasCallback()` capability. -/
structure RData where
  id : Nat
  hasCb : Bool
deriving DecidableEq, Repr

/-- Observable callback events of the store and of a context switch.
`install` marks the write of the current-context slot (`staticCtx = newCtx`). -/
inductive Event : Type where
  | set (i : Nat)
  | unset (i : Nat)
  | install
deriving DecidableEq, Repr

/-- The `State` guarded by `state_`: `requestData_` is the
`std::map<std::string, RequestData::SharedPtr>` (a null `SharedPtr` is an
explicit `none` value under a present key), `callbackData_` is the
`std::set<RequestData*>`, modelled as a pointer-(= id-)sorted list. -/
structure State where
  requestData_ : List (String × Option RData)
  callbackData_ : List Nat
deriving DecidableEq, Repr

/-- The `DoSetBehaviour` enum of `RequestContext`. -/
inductive DoSetBehaviour : Type where
  | SET
  | SET_IF_ABSENT
  | OVERWRITE
deriving DecidableEq, Repr

/-- Insertion `map[key] = value` on the association list: replace in place, else append
(insertion into `std::map`, observed through lookups). -/
def setEntry : List (String × Option RData) → String → Option RData →
    List (String × Option RData)
  | [], k, v => [(k, v)]
  | (k', v') :: rest, k, v =>
      if k' = k then (k, v) :: rest else (k', v') :: setEntry rest k v

/-- Erasure `map.erase(it)` for the entry with the given key. -/
def eraseEntry : List (String × Option RData) → String → List (String × Option RData)
  | [], _ => []
  | (k', v') :: rest, k =>
      if k' = k then rest else (k', v') :: eraseEntry rest k

/-- Models `std::set::insert` on the sorted pointer set. -/
def insertCb : List Nat → Nat → List Nat
  | [], i => [i]
  | j :: js, i =>
      if i < j then i :: j :: js
      else if j < i then j :: insertCb js i
      else j :: js

/-- Models `std::set::erase` on the sorted pointer set. -/
def eraseCb : List Nat → Nat → List Nat
  | [], _ => []
  | j :: js, i => if j = i then js else j :: eraseCb js i

/-- The conflict branch of `doSetContextData`: if the existing entry is
non-null, fire `onUnset` when it has a callback, drop it from
`callbackData_`, and reset the slot to null (`it->second.reset(nullptr)`). -/
def doUnsetOld (val : String) (old : Option RData) (s : State) :
    State × List Event :=
  match old with
  | none => (s, [])
  | some d =>
      if d.hasCb then
        (⟨setEntry s.requestData_ val none, eraseCb s.callbackData_ d.id⟩,
         [Event.unset d.id])
      else
        (⟨setEntry s.requestData_ val none, s.callbackData_⟩, [])

/-- The install tail of `doSetContextData`: register the callback and fire
`onSet` when `data` is non-null and has one, then
`requestData_[val] = constructPtr(data.release())`. -/
def doInstall (val : String) (data : Option RData) (s : State) :
    State × List Event :=
  match data with
  | some d =>
      if d.hasCb then
        (⟨setEntry s.requestData_ val (some d), insertCb s.callbackData_ d.id⟩,
         [Event.set d.id])
      else
        (⟨setEntry s.requestData_ val (some d), s.callbackData_⟩, [])
  | none => (⟨setEntry s.requestData_ val none, s.callbackData_⟩, [])

/-- Models `RequestContext::doSetContextData`.  On a conflict: `SET_IF_ABSENT`
returns false unchanged; `SET` unsets the old entry, nulls the slot and
returns true without installing the new data (the early `return true`);
`OVERWRITE` unsets the old entry and then installs.  Without a conflict all
behaviours install.  The `LOG_FIRST_N` advisory of `SET` is logging, not
store state, and is outside the trace. -/
def doSetContextData (val : String) (data : Option RData)
    (behaviour : DoSetBehaviour) (s : State) : Bool × State × List Event :=
  match List.lookup val s.requestData_ with
  | some old =>
      match behaviour with
      | .SET_IF_ABSENT => (false, s, [])
      | .SET =>
          let u := doUnsetOld val old s
          (true, u.1, u.2)
      | .OVERWRITE =>
          let u := doUnsetOld val old s
          let i := doInstall val data u.1
          (true, i.1, u.2 ++ i.2)
  | none =>
      let i := doInstall val data s
      (true, i.1, i.2)

/-- Models `RequestContext::setContextData` (result state and fired events). -/
def setContextData (val : String) (data : Option RData) (s : State) :
    State × List Event :=
  (doSetContextData val data DoSetBehaviour.SET s).2

/-- Models `RequestContext::setContextDataIfAbsent`. -/
def setContextDataIfAbsent (val : String) (data : Option RData) (s : State) :
    Bool × State × List Event :=
  doSetContextData val data DoSetBehaviour.SET_IF_ABSENT s

/-- Models `RequestContext::overwriteContextData`. -/
def overwriteContextData (val : String) (data : Option RData) (s : State) :
    State × List Event :=
  (doSetContextData val data DoSetBehaviour.OVERWRITE s).2

/-- Models `RequestContext::hasContextData`: `requestData_.count(val)` as a Bool. -/
def hasContextData (val : String) (s : State) : Bool :=
  (List.lookup val s.requestData_).isSome

/-- Models `RequestContext::getContextData`:
`get_ref_default(requestData_, val, nullptr).get()` — null when the key is
absent or the stored `SharedPtr` is null. -/
def getContextData (val : String) (s : State) : Option RData :=
  match List.lookup val s.requestData_ with
  | some sp => sp
  | none => none

/-- Models `RequestContext::clearContextData`: absent key is a no-op; otherwise fire
`onUnset` and unregister if the entry is non-null and callback-bearing, then
erase the map entry (the owning handle is destroyed outside the lock). -/
def clearContextData (val : String) (s : State) : State × List Event :=
  match List.lookup val s.requestData_ with
  | none => (s, [])
  | some (some d) =>
      if d.hasCb then
        (⟨eraseEntry s.requestData_ val, eraseCb s.callbackData_ d.id⟩,
         [Event.unset d.id])
      else
        (⟨eraseEntry s.requestData_ val, s.callbackData_⟩, [])
  | some none => (⟨eraseEntry s.requestData_ val, s.callbackData_⟩, [])

/-- Models `RequestContext::onSet`: fire `onSet` on every member of `callbackData_`
in set order. -/
def ctxOnSet (s : State) : List Event := s.callbackData_.map Event.set

/-- Models `RequestContext::onUnset`. -/
def ctxOnUnset (s : State) : List Event := s.callbackData_.map Event.unset

/-- Models `exec_set_difference`: merge-style walk over two pointer-sorted sets,
running `exec` on every element of `data` not in `other`; here it returns
the list of elements it executes on, in execution order. -/
def execSetDifference (d o : List Nat) : List Nat :=
  match d, o with
  | [], _ => []
  | x :: ds, [] => x :: execSetDifference ds []
  | x :: ds, y :: os =>
      if x < y then x :: execSetDifference ds (y :: os)
      else if y < x then execSetDifference (x :: ds) os
      else execSetDifference ds os
termination_by d.length + o.length

/-- A `RequestContext` as held through a `std::shared_ptr`: `id` models the
object's address (pointer identity), `st` its `state_`. -/
structure Ctx where
  id : Nat
  st : State
deriving DecidableEq, Repr

/-- Pointer identity of an optional `shared_ptr<RequestContext>`
(`newCtx == staticCtx` compares the stored pointers). -/
def optId (c : Option Ctx) : Option Nat := c.map Ctx.id

/-- Models `RequestContext::setContext` acting on the current-context slot.
Result: (returned previous context, new slot value, event trace).
When both contexts exist, the trace is `onUnset` on the outgoing-only
callback entries (while the old context is still installed), the slot write,
then `onSet` on the incoming-only entries; when one side is null, all
callback entries of the outgoing / incoming context fire around the write. -/
def setContext (newCtx slot : Option Ctx) :
    Option Ctx × Option Ctx × List Event :=
  if optId newCtx = optId slot then (newCtx, slot, [])
  else
    match newCtx, slot with
    | some nc, some cc =>
        (some cc, some nc,
         (execSetDifference cc.st.callbackData_ nc.st.callbackData_).map Event.unset
           ++ [Event.install]
           ++ (execSetDifference nc.st.callbackData_ cc.st.callbackData_).map Event.set)
    | nc, cc =>
        (cc, nc,
         (match cc with | some c => ctxOnUnset c.st | none => [])
           ++ [Event.install]
           ++ (match nc with | some c => ctxOnSet c.st | none => []))

/-- The store built by `setShallowCopyContext`'s copy loop
(`childLock->requestData_[entry.first] = constructPtr(entry.second.get())`
over the parent's entries, after `childLock->callbackData_ =
parentLock->callbackData_`), together with the list of object identities on
which `constructPtr` performed a reference-count increment (the non-null
entries, in map order; `constructPtr(nullptr)` increments nothing). -/
def shallowCopyStore (s : State) : State × List Nat :=
  (⟨s.requestData_.foldl (fun m p => setEntry m p.1 p.2) [], s.callbackData_⟩,
   s.requestData_.filterMap (fun p => p.2.map RData.id))

/-- Models `RequestContext::setShallowCopyContext`: build a child (a fresh context,
`freshId` models its new address), copy the parent's store into it, swap it
into the slot with no callbacks, and return the previous (parent) context.
Result: (returned previous context, new slot, events fired, rc increments). -/
def setShallowCopyContext (freshId : Nat) (slot : Option Ctx) :
    Option Ctx × Option Ctx × List Event × List Nat :=
  match slot with
  | some parent =>
      ((some parent : Option Ctx), some ⟨freshId, (shallowCopyStore parent.st).1⟩,
       ([] : List Event), (shallowCopyStore parent.st).2)
  | none => (none, some ⟨freshId, ⟨[], []⟩⟩, [], [])

/-- The lazily-created process-wide default context of `RequestContext::get`
(the function-local `static RequestContext defaultContext`): one fixed
object, the same on every call. -/
def defaultContext : Ctx := ⟨0, ⟨[], []⟩⟩

/-- Models `RequestContext::get`: read the slot; if it holds no context, return the
default singleton without writing the slot; otherwise return the installed
context.  Result: (returned context, slot after the call). -/
def rcGet (slot : Option Ctx) : Ctx × Option Ctx :=
  match slot with
  | none => (defaultContext, slot)
  | some c => (c, slot)

/-! ### The reference-count protocol

`RequestData::constructPtr` (acquire: `fetch_add(1)`, `DCHECK(old >= 0)`) and
`RequestData::DestructPtr::operator()` (release: `fetch_sub(1)`,
`DCHECK(old > 0)`, `delete` when the pre-decrement value is 1), as a counter
automaton over acquire/release traces. -/

/-- An operation on one `RequestData`'s `keepAliveCounter_`. -/
inductive RcOp : Type where
  | acq
  | rel
deriving DecidableEq, Repr

/-- Run a trace from counter `c`, accumulating the number of destructions
(`delete ptr` fires exactly at a release whose pre-decrement counter is 1). -/
def rcRunFrom (c : Int) (dc : Nat) : List RcOp → Int × Nat
  | [] => (c, dc)
  | RcOp.acq :: t => rcRunFrom (c + 1) dc t
  | RcOp.rel :: t => rcRunFrom (c - 1) (if c = 1 then dc + 1 else dc) t

/-- The `DCHECK`s along a trace from counter `c`: `constructPtr` asserts the
pre-increment counter is non-negative, `DestructPtr` asserts the
pre-decrement counter is positive. -/
def rcAssertsOk (c : Int) : List RcOp → Bool
  | [] => true
  | RcOp.acq :: t => decide (0 ≤ c) && rcAssertsOk (c + 1) t
  | RcOp.rel :: t => decide (0 < c) && rcAssertsOk (c - 1) t

/-- The claim's precondition: every release is preceded by strictly more
acquires than prior releases (`a` acquires and `r` releases seen so far). -/
def validRelsFrom (a r : Nat) : List RcOp → Bool
  | [] => true
  | RcOp.acq :: t => validRelsFrom (a + 1) r t
  | RcOp.rel :: t => decide (r < a) && validRelsFrom a (r + 1) t

/-- The spec's §4.1 discipline after the construction-time acquire: every
operation (a further acquire, or a release) happens only while the counter
is still positive. -/
def rcValidFrom (c : Nat) : List RcOp → Bool
  | [] => true
  | RcOp.acq :: t => decide (1 ≤ c) && rcValidFrom (c + 1) t
  | RcOp.rel :: t => decide (1 ≤ c) && rcValidFrom (c - 1) t

/-- The counter after a trace, in ℕ (exact along `rcValidFrom`-valid traces,
where no decrement underflows). -/
def natCounterAfter (c : Nat) : List RcOp → Nat
  | [] => c
  | RcOp.acq :: t => natCounterAfter (c + 1) t
  | RcOp.rel :: t => natCounterAfter (c - 1) t

/-! ### The machine of public store operations (for the derived-index
invariant) -/

/-- A public mutating store operation.  A `set`-family operation carries the
payload the caller would construct: `none` models passing a null
`unique_ptr`, `some cb` a fresh `RequestData` whose `hasCallback()` is `cb`
(each call constructs a brand-new object, so the machine assigns it a fresh
identity). -/
inductive Op : Type where
  | set (k : String) (d : Option Bool)
  | setIfAbsent (k : String) (d : Option Bool)
  | overwrite (k : String) (d : Option Bool)
  | clear (k : String)
  | shallowCopy
deriving DecidableEq, Repr

/-- Machine state: the store plus the next fresh object identity. -/
structure MState where
  store : State
  next : Nat
deriving DecidableEq, Repr

/-- The payload object a `set`-family call constructs. -/
def mkData (next : Nat) : Option Bool → Option RData
  | none => none
  | some cb => some ⟨next, cb⟩

/-- One public operation.  `shallowCopy` continues on the child's store. -/
def stepOp (m : MState) : Op → MState
  | Op.set k d =>
      ⟨(doSetContextData k (mkData m.next d) DoSetBehaviour.SET m.store).2.1,
       m.next + 1⟩
  | Op.setIfAbsent k d =>
      ⟨(doSetContextData k (mkData m.next d) DoSetBehaviour.SET_IF_ABSENT m.store).2.1,
       m.next + 1⟩
  | Op.overwrite k d =>
      ⟨(doSetContextData k (mkData m.next d) DoSetBehaviour.OVERWRITE m.store).2.1,
       m.next + 1⟩
  | Op.clear k => ⟨(clearContextData k m.store).1, m.next⟩
  | Op.shallowCopy => ⟨(shallowCopyStore m.store).1, m.next⟩

/-- Run a sequence of public operations from an empty store. -/
def runOps (ops : List Op) : MState :=
  ops.foldl stepOp ⟨⟨[], []⟩, 0⟩

/-- The derived-index invariant of a store: keys occupy one slot each, no
object identity appears under two keys, `callbackData_` is pointer-sorted,
and it holds exactly the identities of the non-null, callback-bearing
values of `requestData_`. -/
def StoreInv (s : State) : Prop :=
  (s.requestData_.map Prod.fst).Nodup ∧
  (∀ k1 k2 d1 d2,
      List.lookup k1 s.requestData_ = some (some d1) →
      List.lookup k2 s.requestData_ = some (some d2) →
      d1.id = d2.id → k1 = k2) ∧
  List.Pairwise (· < ·) s.callbackData_ ∧
  ∀ i, i ∈ s.callbackData_ ↔
    ∃ k d, List.lookup k s.requestData_ = some (some d) ∧ d.hasCb ∧ d.id = i

/-- All object identities in the store are below the fresh counter. -/
def FreshInv (m : MState) : Prop :=
  ∀ k d, List.lookup k m.store.requestData_ = some (some d) → d.id < m.next

/-- The callback set after unsetting an existing entry `old` of the slot. -/
def unsetCbSet (old : Option RData) (cb : List Nat) : List Nat :=
  match old with
  | some d => if d.hasCb then eraseCb cb d.id else cb
  | none => cb

/-- The events fired by unsetting an existing entry `old`. -/
def unsetEvents (old : Option RData) : List Event :=
  match old with
  | some d => if d.hasCb then [Event.unset d.id] else []
  | none => []

/-- The callback set after installing `data`. -/
def installCbSet (data : Option RData) (cb : List Nat) : List Nat :=
  match data with
  | some d => if d.hasCb then insertCb cb d.id else cb
  | none => cb

/-- The events fired by installing `data`. -/
def installEvents (data : Option RData) : List Event :=
  match data with
  | some d => if d.hasCb then [Event.set d.id] else []
  | none => []

/-! ### Association-list and sorted-set lemmas -/

theorem lookup_eq_none_of_not_mem_keys {m : List (String × Option RData)}
    {k : String} (h : k ∉ m.map Prod.fst) : List.lookup k m = none := by
  induction m with
  | nil => rfl
  | cons p rest ih =>
      simp only [List.map_cons, List.mem_cons, not_or] at h
      have hb : (k == p.1) = false := beq_eq_false_iff_ne.mpr h.1
      simp [List.lookup, hb, ih h.2]

theorem lookup_setEntry_self (m : List (String × Option RData)) (k : String)
    (v : Option RData) : List.lookup k (setEntry m k v) = some v := by
  induction m with
  | nil => simp [setEntry, List.lookup]
  | cons p rest ih =>
      by_cases h : p.1 = k
      · simp [setEntry, h, List.lookup]
      · have hb : (k == p.1) = false := beq_eq_false_iff_ne.mpr (Ne.symm h)
        simp [setEntry, h, List.lookup, hb, ih]

theorem lookup_setEntry_ne (m : List (String × Option RData)) {k k' : String}
    (v : Option RData) (h : k' ≠ k) :
    List.lookup k' (setEntry m k v) = List.lookup k' m := by
  have hb : (k' == k) = false := beq_eq_false_iff_ne.mpr h
  induction m with
  | nil => simp [setEntry, List.lookup, hb]
  | cons p rest ih =>
      by_cases hp : p.1 = k
      · subst hp
        simp [setEntry, List.lookup, hb]
      · by_cases hk : k' = p.1
        · have hb2 : (k' == p.1) = true := beq_iff_eq.mpr hk
          simp [setEntry, hp, List.lookup, hb2]
        · have hb2 : (k' == p.1) = false := beq_eq_false_iff_ne.mpr hk
          simp [setEntry, hp, List.lookup, hb2, ih]

theorem setEntry_of_lookup_eq {m : List (String × Option RData)} {k : String}
    {v : Option RData} (h : List.lookup k m = some v) : setEntry m k v = m := by
  induction m with
  | nil => simp [List.lookup] at h
  | cons p rest ih =>
      by_cases hp : k = p.1
      · have hb : (k == p.1) = true := beq_iff_eq.mpr hp
        simp only [List.lookup, hb] at h
        obtain ⟨hv⟩ := h
        obtain ⟨k', v'⟩ := p
        simp_all [setEntry]
      · have hb : (k == p.1) = false := beq_eq_false_iff_ne.mpr hp
        simp only [List.lookup, hb] at h
        simp [setEntry, Ne.symm hp, ih h]

theorem setEntry_setEntry (m : List (String × Option RData)) (k : String)
    (v w : Option RData) : setEntry (setEntry m k v) k w = setEntry m k w := by
  induction m with
  | nil => simp [setEntry]
  | cons p rest ih =>
      by_cases h : p.1 = k
      · simp [setEntry, h]
      · simp [setEntry, h, ih]

theorem lookup_eraseEntry_ne (m : List (String × Option RData)) {k k' : String}
    (h : k' ≠ k) : List.lookup k' (eraseEntry m k) = List.lookup k' m := by
  induction m with
  | nil => rfl
  | cons p rest ih =>
      by_cases hp : p.1 = k
      · subst hp
        have hb : (k' == p.1) = false := beq_eq_false_iff_ne.mpr h
        simp [eraseEntry, List.lookup, hb]
      · by_cases hk : k' = p.1
        · have hb : (k' == p.1) = true := beq_iff_eq.mpr hk
          simp [eraseEntry, hp, List.lookup, hb]
        · have hb : (k' == p.1) = false := beq_eq_false_iff_ne.mpr hk
          simp [eraseEntry, hp, List.lookup, hb, ih]

theorem lookup_eraseEntry_self (m : List (String × Option RData)) (k : String)
    (hnd : (m.map Prod.fst).Nodup) : List.lookup k (eraseEntry m k) = none := by
  induction m with
  | nil => rfl
  | cons p rest ih =>
      simp only [List.map_cons, List.nodup_cons] at hnd
      by_cases hp : p.1 = k
      · subst hp
        simp only [eraseEntry, if_pos rfl]
        exact lookup_eq_none_of_not_mem_keys hnd.1
      · have hb : (k == p.1) = false := beq_eq_false_iff_ne.mpr (Ne.symm hp)
        simp [eraseEntry, hp, List.lookup, hb, ih hnd.2]

theorem mem_insertCb {l : List Nat} {i m : Nat} :
    m ∈ insertCb l i ↔ m = i ∨ m ∈ l := by
  induction l with
  | nil => simp [insertCb]
  | cons j js ih =>
      by_cases h1 : i < j
      · simp [insertCb, h1]
      · by_cases h2 : j < i
        · simp only [insertCb, h1, if_false, h2, if_true, List.mem_cons, ih]
          tauto
        · have : i = j := le_antisymm (not_lt.mp h2) (not_lt.mp h1)
          subst this
          simp [insertCb, h1, h2]

theorem pairwise_insertCb {l : List Nat} {i : Nat}
    (h : List.Pairwise (· < ·) l) : List.Pairwise (· < ·) (insertCb l i) := by
  induction l with
  | nil => simp [insertCb]
  | cons j js ih =>
      rw [List.pairwise_cons] at h
      by_cases h1 : i < j
      · rw [insertCb]
        simp only [h1, if_true]
        refine List.Pairwise.cons ?_ (List.Pairwise.cons h.1 h.2)
        intro m hm
        rcases List.mem_cons.mp hm with rfl | hm'
        · exact h1
        · exact h1.trans (h.1 m hm')
      · by_cases h2 : j < i
        · rw [insertCb]
          simp only [h1, if_false, h2, if_true]
          refine List.Pairwise.cons ?_ (ih h.2)
          intro m hm
          rcases mem_insertCb.mp hm with rfl | hm'
          · exact h2
          · exact h.1 m hm'
        · rw [insertCb]
          simp only [h1, if_false, h2, if_false]
          exact List.Pairwise.cons h.1 h.2

theorem eraseCb_sublist (l : List Nat) (i : Nat) : (eraseCb l i).Sublist l := by
  induction l with
  | nil => simp [eraseCb]
  | cons j js ih =>
      by_cases h : j = i
      · simp [eraseCb, h]
      · simpa [eraseCb, h] using ih.cons₂ j

theorem pairwise_eraseCb {l : List Nat} {i : Nat}
    (h : List.Pairwise (· < ·) l) : List.Pairwise (· < ·) (eraseCb l i) :=
  h.sublist (eraseCb_sublist l i)

theorem mem_eraseCb {l : List Nat} {i m : Nat} (hnd : l.Nodup) :
    m ∈ eraseCb l i ↔ m ∈ l ∧ m ≠ i := by
  induction l with
  | nil => simp [eraseCb]
  | cons j js ih =>
      rw [List.nodup_cons] at hnd
      by_cases h : j = i
      · subst h
        simp only [eraseCb, if_pos rfl, List.mem_cons]
        constructor
        · intro hm
          exact ⟨Or.inr hm, fun he => hnd.1 (he ▸ hm)⟩
        · rintro ⟨rfl | hm, hne⟩
          · exact absurd rfl hne
          · exact hm
      · simp only [eraseCb, h, if_false, List.mem_cons, ih hnd.2]
        constructor
        · rintro (rfl | ⟨hm, hne⟩)
          · exact ⟨Or.inl rfl, h⟩
          · exact ⟨Or.inr hm, hne⟩
        · rintro ⟨rfl | hm, hne⟩
          · exact Or.inl rfl
          · exact Or.inr ⟨hm, hne⟩

theorem pairwise_lt_nodup {l : List Nat} (h : List.Pairwise (· < ·) l) :
    l.Nodup :=
  h.imp ne_of_lt

theorem mem_keys_setEntry {m : List (String × Option RData)} {k k' : String}
    {v : Option RData} :
    k' ∈ (setEntry m k v).map Prod.fst ↔ k' ∈ m.map Prod.fst ∨ k' = k := by
  induction m with
  | nil => simp [setEntry]
  | cons p rest ih =>
      by_cases h : p.1 = k
      · subst h
        simp [setEntry]
        tauto
      · simp [setEntry, h, ih]
        tauto

theorem nodup_keys_setEntry {m : List (String × Option RData)} {k : String}
    {v : Option RData} (hnd : (m.map Prod.fst).Nodup) :
    ((setEntry m k v).map Prod.fst).Nodup := by
  induction m with
  | nil => simp [setEntry]
  | cons p rest ih =>
      obtain ⟨k', v'⟩ := p
      simp only [List.map_cons, List.nodup_cons] at hnd
      by_cases h : k' = k
      · subst h
        simpa [setEntry] using hnd
      · simp only [setEntry, h, if_false, List.map_cons, List.nodup_cons]
        refine ⟨?_, ih hnd.2⟩
        intro hmem
        rcases mem_keys_setEntry.mp hmem with hm | he
        · exact hnd.1 hm
        · exact h he

theorem keys_eraseEntry_sublist (m : List (String × Option RData)) (k : String) :
    ((eraseEntry m k).map Prod.fst).Sublist (m.map Prod.fst) := by
  induction m with
  | nil => simp [eraseEntry]
  | cons p rest ih =>
      by_cases h : p.1 = k
      · simp only [eraseEntry, h, if_true, List.map_cons]
        exact (List.sublist_cons_self _ _)
      · simp only [eraseEntry, h, if_false, List.map_cons]
        exact ih.cons₂ p.1

/-- The install tail, uniformly: slot written with `data`, callback set and
events per `data`'s capability. -/
theorem doInstall_eq (val : String) (data : Option RData) (s : State) :
    doInstall val data s =
      (⟨setEntry s.requestData_ val data, installCbSet data s.callbackData_⟩,
       installEvents data) := by
  cases data with
  | none => simp [doInstall, installCbSet, installEvents]
  | some d =>
      by_cases h : d.hasCb <;>
        simp [doInstall, installCbSet, installEvents, h]

/-- The conflict branch, uniformly (for an entry actually present under
`val`): slot reset to null, callback set and events per the old entry. -/
theorem doUnsetOld_eq (val : String) (old : Option RData) (s : State)
    (hlook : List.lookup val s.requestData_ = some old) :
    doUnsetOld val old s =
      (⟨setEntry s.requestData_ val none, unsetCbSet old s.callbackData_⟩,
       unsetEvents old) := by
  cases old with
  | none =>
      simp [doUnsetOld, unsetCbSet, unsetEvents, setEntry_of_lookup_eq hlook]
  | some d =>
      by_cases h : d.hasCb <;>
        simp [doUnsetOld, unsetCbSet, unsetEvents, h]

/-- Installing fresh data into a store whose `val` slot is empty or nulled
preserves the derived-index invariant. -/
theorem StoreInv_install (s : State) (val : String) (data : Option RData)
    (hinv : StoreInv s)
    (hval : List.lookup val s.requestData_ = none ∨
      List.lookup val s.requestData_ = some none)
    (hfresh : ∀ k' d', List.lookup k' s.requestData_ = some (some d') →
      ∀ d, data = some d → d'.id ≠ d.id) :
    StoreInv ⟨setEntry s.requestData_ val data,
      installCbSet data s.callbackData_⟩ := by
  obtain ⟨hnd, hinj, hsort, hmatch⟩ := hinv
  have hlook : ∀ k', List.lookup k' (setEntry s.requestData_ val data) =
      if k' = val then some data else List.lookup k' s.requestData_ := by
    intro k'
    by_cases h : k' = val
    · subst h; simp [lookup_setEntry_self]
    · simp [h, lookup_setEntry_ne _ _ h]
  have hvalno : ∀ d : RData, ¬ List.lookup val s.requestData_ = some (some d) := by
    intro d hc
    rcases hval with h | h <;> rw [h] at hc <;> simp at hc
  refine ⟨nodup_keys_setEntry hnd, ?_, ?_, ?_⟩
  · intro k1 k2 d1 d2 h1 h2 hid
    rw [hlook] at h1 h2
    by_cases hk1 : k1 = val <;> by_cases hk2 : k2 = val
    · rw [hk1, hk2]
    · rw [if_pos hk1] at h1
      rw [if_neg hk2] at h2
      have hd1 : data = some d1 := by simpa using h1
      exact absurd hid.symm (hfresh k2 d2 h2 d1 hd1)
    · rw [if_neg hk1] at h1
      rw [if_pos hk2] at h2
      have hd2 : data = some d2 := by simpa using h2
      exact absurd hid (hfresh k1 d1 h1 d2 hd2)
    · rw [if_neg hk1] at h1
      rw [if_neg hk2] at h2
      exact hinj k1 k2 d1 d2 h1 h2 hid
  · cases data with
    | none => exact hsort
    | some d =>
        by_cases h : d.hasCb
        · simpa [installCbSet, h] using pairwise_insertCb hsort
        · simpa [installCbSet, h] using hsort
  · intro i
    have hold : ∀ (hnew : ∃ k e, (k ≠ val) ∧
        List.lookup k s.requestData_ = some (some e) ∧ e.hasCb ∧ e.id = i),
        i ∈ s.callbackData_ := by
      rintro ⟨k, e, _, hl, hcb, hid⟩
      exact (hmatch i).mpr ⟨k, e, hl, hcb, hid⟩
    have hnewof : ∀ (hin : i ∈ s.callbackData_), ∃ k e,
        List.lookup k (setEntry s.requestData_ val data) = some (some e) ∧
        e.hasCb ∧ e.id = i := by
      intro hin
      obtain ⟨k, e, hl, hcb, hid⟩ := (hmatch i).mp hin
      have hk : k ≠ val := fun he => hvalno e (he ▸ hl)
      refine ⟨k, e, ?_, hcb, hid⟩
      rw [hlook, if_neg hk]
      exact hl
    cases data with
    | none =>
        simp only [installCbSet]
        rw [hmatch i]
        constructor
        · rintro ⟨k, e, hl, hcb, hid⟩
          have hk : k ≠ val := fun he => hvalno e (he ▸ hl)
          refine ⟨k, e, ?_, hcb, hid⟩
          rw [hlook, if_neg hk]
          exact hl
        · rintro ⟨k, e, hl, hcb, hid⟩
          rw [hlook] at hl
          by_cases hk : k = val
          · rw [if_pos hk] at hl
            simp at hl
          · rw [if_neg hk] at hl
            exact ⟨k, e, hl, hcb, hid⟩
    | some d =>
        by_cases h : d.hasCb
        · simp only [installCbSet, h]
          rw [if_pos trivial, mem_insertCb]
          constructor
          · rintro (rfl | hin)
            · refine ⟨val, d, ?_, h, rfl⟩
              rw [hlook, if_pos rfl]
            · exact hnewof hin
          · rintro ⟨k, e, hl, hcb, hid⟩
            rw [hlook] at hl
            by_cases hk : k = val
            · rw [if_pos hk] at hl
              have : d = e := by simpa using hl
              exact Or.inl (hid ▸ this ▸ rfl)
            · rw [if_neg hk] at hl
              exact Or.inr ((hmatch i).mpr ⟨k, e, hl, hcb, hid⟩)
        · have hf : d.hasCb = false := by simpa using h
          simp only [installCbSet, hf]
          rw [if_neg (by simp)]
          rw [hmatch i]
          constructor
          · rintro ⟨k, e, hl, hcb, hid⟩
            have hk : k ≠ val := fun he => hvalno e (he ▸ hl)
            refine ⟨k, e, ?_, hcb, hid⟩
            rw [hlook, if_neg hk]
            exact hl
          · rintro ⟨k, e, hl, hcb, hid⟩
            rw [hlook] at hl
            by_cases hk : k = val
            · rw [if_pos hk] at hl
              have hde : d = e := by simpa using hl
              rw [← hde, hf] at hcb
              exact absurd hcb (by simp)
            · rw [if_neg hk] at hl
              exact ⟨k, e, hl, hcb, hid⟩

theorem setEntry_append_of_not_mem (acc : List (String × Option RData))
    {k : String} (v : Option RData) (h : k ∉ acc.map Prod.fst) :
    setEntry acc k v = acc ++ [(k, v)] := by
  induction acc with
  | nil => simp [setEntry]
  | cons p rest ih =>
      simp only [List.map_cons, List.mem_cons, not_or] at h
      have hne : p.1 ≠ k := fun he => h.1 he.symm
      simp [setEntry, hne, ih h.2]

/-- Rebuilding a duplicate-free association list key-by-key (the copy loop
of `setShallowCopyContext`) reproduces it exactly. -/
theorem foldl_setEntry_eq (l acc : List (String × Option RData))
    (hnd : (l.map Prod.fst).Nodup)
    (hdisj : ∀ k, k ∈ l.map Prod.fst → k ∉ acc.map Prod.fst) :
    l.foldl (fun m p => setEntry m p.1 p.2) acc = acc ++ l := by
  induction l generalizing acc with
  | nil => simp
  | cons p rest ih =>
      simp only [List.map_cons, List.nodup_cons] at hnd
      simp only [List.foldl_cons]
      rw [setEntry_append_of_not_mem acc p.2 (hdisj p.1 (by simp))]
      rw [ih (acc ++ [(p.1, p.2)]) hnd.2 ?_]
      · simp
      · intro k hk
        simp only [List.map_append, List.mem_append, List.map_cons,
          List.mem_singleton, List.map_nil, not_or]
        refine ⟨hdisj k (by simp [hk]), ?_⟩
        intro he
        exact hnd.1 (he ▸ hk)

theorem shallowCopyStore_state (s : State)
    (hnd : (s.requestData_.map Prod.fst).Nodup) :
    (shallowCopyStore s).1 = s := by
  have h := foldl_setEntry_eq s.requestData_ [] hnd (by simp)
  simp only [shallowCopyStore, h, List.nil_append]

/-- Removing or nulling the `val` slot (with the matching callback-set
update) preserves the derived-index invariant: `m'` is any entries map that
is dead at `val` and agrees with the old map elsewhere. -/
theorem StoreInv_removeVal (s : State) (val : String) (old : Option RData)
    (hinv : StoreInv s)
    (hlook0 : List.lookup val s.requestData_ = some old)
    (m' : List (String × Option RData))
    (hndm : (m'.map Prod.fst).Nodup)
    (hdead : ∀ e : RData, ¬ List.lookup val m' = some (some e))
    (hsame : ∀ k', k' ≠ val → List.lookup k' m' = List.lookup k' s.requestData_) :
    StoreInv ⟨m', unsetCbSet old s.callbackData_⟩ := by
  obtain ⟨hnd, hinj, hsort, hmatch⟩ := hinv
  refine ⟨hndm, ?_, ?_, ?_⟩
  · intro k1 k2 d1 d2 h1 h2 hid
    by_cases hk1 : k1 = val
    · exact absurd (hk1 ▸ h1) (hdead d1)
    · by_cases hk2 : k2 = val
      · exact absurd (hk2 ▸ h2) (hdead d2)
      · rw [hsame k1 hk1] at h1
        rw [hsame k2 hk2] at h2
        exact hinj k1 k2 d1 d2 h1 h2 hid
  · cases old with
    | none => exact hsort
    | some d0 =>
        by_cases h : d0.hasCb
        · simp only [unsetCbSet, h]
          rw [if_pos trivial]
          exact pairwise_eraseCb hsort
        · have hf : d0.hasCb = false := by simpa using h
          simp only [unsetCbSet, hf]
          rw [if_neg (by simp)]
          exact hsort
  · intro i
    cases old with
    | none =>
        simp only [unsetCbSet]
        rw [hmatch i]
        constructor
        · rintro ⟨k, e, hl, hcb, hid⟩
          have hk : k ≠ val := by
            intro he
            rw [he, hlook0] at hl
            simp at hl
          exact ⟨k, e, (hsame k hk) ▸ hl, hcb, hid⟩
        · rintro ⟨k, e, hl, hcb, hid⟩
          have hk : k ≠ val := fun he => hdead e (he ▸ hl)
          rw [hsame k hk] at hl
          exact ⟨k, e, hl, hcb, hid⟩
    | some d0 =>
        by_cases h : d0.hasCb
        · simp only [unsetCbSet, h]
          rw [if_pos trivial, mem_eraseCb (pairwise_lt_nodup hsort)]
          constructor
          · rintro ⟨hin, hne⟩
            obtain ⟨k, e, hl, hcb, hid⟩ := (hmatch i).mp hin
            have hk : k ≠ val := by
              intro he
              rw [he, hlook0] at hl
              have : d0 = e := by simpa using hl
              exact hne (hid ▸ this ▸ rfl)
            exact ⟨k, e, (hsame k hk) ▸ hl, hcb, hid⟩
          · rintro ⟨k, e, hl, hcb, hid⟩
            have hk : k ≠ val := fun he => hdead e (he ▸ hl)
            rw [hsame k hk] at hl
            refine ⟨(hmatch i).mpr ⟨k, e, hl, hcb, hid⟩, ?_⟩
            intro hie
            have : k = val := hinj k val e d0 hl hlook0 (by rw [hid, hie])
            exact hk this
        · have hf : d0.hasCb = false := by simpa using h
          simp only [unsetCbSet, hf]
          rw [if_neg (by simp)]
          rw [hmatch i]
          constructor
          · rintro ⟨k, e, hl, hcb, hid⟩
            have hk : k ≠ val := by
              intro he
              rw [he, hlook0] at hl
              have hde : d0 = e := by simpa using hl
              rw [← hde, hf] at hcb
              exact absurd hcb (by simp)
            exact ⟨k, e, (hsame k hk) ▸ hl, hcb, hid⟩
          · rintro ⟨k, e, hl, hcb, hid⟩
            have hk : k ≠ val := fun he => hdead e (he ▸ hl)
            rw [hsame k hk] at hl
            exact ⟨k, e, hl, hcb, hid⟩

/-- The conflict branch preserves the invariant. -/
theorem StoreInv_doUnsetOld (s : State) (val : String) (old : Option RData)
    (hinv : StoreInv s)
    (hlook : List.lookup val s.requestData_ = some old) :
    StoreInv ⟨setEntry s.requestData_ val none,
      unsetCbSet old s.callbackData_⟩ := by
  refine StoreInv_removeVal s val old hinv hlook _ (nodup_keys_setEntry hinv.1)
    ?_ ?_
  · intro e hc
    rw [lookup_setEntry_self] at hc
    simp at hc
  · intro k' hk'
    exact lookup_setEntry_ne _ _ hk'

/-- Clearing preserves the invariant. -/
theorem StoreInv_clearContextData (s : State) (val : String)
    (hinv : StoreInv s) : StoreInv (clearContextData val s).1 := by
  cases hl : List.lookup val s.requestData_ with
  | none =>
      simp only [clearContextData, hl]
      exact hinv
  | some old =>
      have hstate : (clearContextData val s).1 =
          ⟨eraseEntry s.requestData_ val, unsetCbSet old s.callbackData_⟩ := by
        cases old with
        | none => simp [clearContextData, hl, unsetCbSet]
        | some d =>
            by_cases h : d.hasCb <;>
              simp [clearContextData, hl, unsetCbSet, h]
      rw [hstate]
      refine StoreInv_removeVal s val old hinv hl _
        (hinv.1.sublist (keys_eraseEntry_sublist _ _)) ?_ ?_
      · intro e hc
        rw [lookup_eraseEntry_self _ _ hinv.1] at hc
        simp at hc
      · intro k' hk'
        exact lookup_eraseEntry_ne _ hk'

/-- Installing the machine's fresh payload preserves the invariant and the
freshness bound. -/
theorem install_fresh_inv (s : State) (val : String) (next : Nat)
    (d : Option Bool) (hinv : StoreInv s)
    (hval : List.lookup val s.requestData_ = none ∨
      List.lookup val s.requestData_ = some none)
    (hfr : ∀ k' d', List.lookup k' s.requestData_ = some (some d') →
      d'.id < next) :
    StoreInv ⟨setEntry s.requestData_ val (mkData next d),
      installCbSet (mkData next d) s.callbackData_⟩ ∧
    (∀ k' d', List.lookup k' (setEntry s.requestData_ val (mkData next d)) =
      some (some d') → d'.id < next + 1) := by
  constructor
  · refine StoreInv_install s val (mkData next d) hinv hval ?_
    intro k' d' hl dd hdd
    have hid : dd.id = next := by
      cases d with
      | none => simp [mkData] at hdd
      | some cb =>
          have : dd = ⟨next, cb⟩ := by simpa [mkData] using hdd.symm
          rw [this]
    rw [hid]
    exact Nat.ne_of_lt (hfr k' d' hl)
  · intro k' d' hl
    by_cases hk : k' = val
    · rw [hk, lookup_setEntry_self] at hl
      cases d with
      | none => simp [mkData] at hl
      | some cb =>
          have : d' = ⟨next, cb⟩ := by simpa [mkData] using hl.symm
          rw [this]
          exact Nat.lt_succ_self next
    · rw [lookup_setEntry_ne _ _ hk] at hl
      exact Nat.lt_succ_of_lt (hfr k' d' hl)

/-- One public operation preserves the combined machine invariant. -/
theorem MInv_stepOp (m : MState) (op : Op)
    (h : StoreInv m.store ∧ FreshInv m) :
    StoreInv (stepOp m op).store ∧ FreshInv (stepOp m op) := by
  obtain ⟨hinv, hfr⟩ := h
  cases op with
  | set k d =>
      cases hl : List.lookup k m.store.requestData_ with
      | none =>
          have hstep : stepOp m (Op.set k d) =
              ⟨⟨setEntry m.store.requestData_ k (mkData m.next d),
                installCbSet (mkData m.next d) m.store.callbackData_⟩,
               m.next + 1⟩ := by
            simp [stepOp, doSetContextData, hl, doInstall_eq]
          rw [hstep]
          have := install_fresh_inv m.store k m.next d hinv (Or.inl hl) hfr
          exact ⟨this.1, fun k' d' hl' => this.2 k' d' hl'⟩
      | some old =>
          have hstep : stepOp m (Op.set k d) =
              ⟨⟨setEntry m.store.requestData_ k none,
                unsetCbSet old m.store.callbackData_⟩,
               m.next + 1⟩ := by
            simp [stepOp, doSetContextData, hl, doUnsetOld_eq k old m.store hl]
          rw [hstep]
          refine ⟨StoreInv_doUnsetOld m.store k old hinv hl, ?_⟩
          intro k' d' hl'
          by_cases hk : k' = k
          · rw [hk, lookup_setEntry_self] at hl'
            simp at hl'
          · rw [lookup_setEntry_ne _ _ hk] at hl'
            exact Nat.lt_succ_of_lt (hfr k' d' hl')
  | setIfAbsent k d =>
      cases hl : List.lookup k m.store.requestData_ with
      | none =>
          have hstep : stepOp m (Op.setIfAbsent k d) =
              ⟨⟨setEntry m.store.requestData_ k (mkData m.next d),
                installCbSet (mkData m.next d) m.store.callbackData_⟩,
               m.next + 1⟩ := by
            simp [stepOp, doSetContextData, hl, doInstall_eq]
          rw [hstep]
          have := install_fresh_inv m.store k m.next d hinv (Or.inl hl) hfr
          exact ⟨this.1, fun k' d' hl' => this.2 k' d' hl'⟩
      | some old =>
          have hstep : stepOp m (Op.setIfAbsent k d) = ⟨m.store, m.next + 1⟩ := by
            simp [stepOp, doSetContextData, hl]
          rw [hstep]
          exact ⟨hinv, fun k' d' hl' => Nat.lt_succ_of_lt (hfr k' d' hl')⟩
  | overwrite k d =>
      cases hl : List.lookup k m.store.requestData_ with
      | none =>
          have hstep : stepOp m (Op.overwrite k d) =
              ⟨⟨setEntry m.store.requestData_ k (mkData m.next d),
                installCbSet (mkData m.next d) m.store.callbackData_⟩,
               m.next + 1⟩ := by
            simp [stepOp, doSetContextData, hl, doInstall_eq]
          rw [hstep]
          have := install_fresh_inv m.store k m.next d hinv (Or.inl hl) hfr
          exact ⟨this.1, fun k' d' hl' => this.2 k' d' hl'⟩
      | some old =>
          have hstep : stepOp m (Op.overwrite k d) =
              ⟨⟨setEntry
                  (setEntry m.store.requestData_ k none) k (mkData m.next d),
                installCbSet (mkData m.next d)
                  (unsetCbSet old m.store.callbackData_)⟩,
               m.next + 1⟩ := by
            simp [stepOp, doSetContextData, hl,
              doUnsetOld_eq k old m.store hl, doInstall_eq]
          rw [hstep]
          have hinv1 : StoreInv ⟨setEntry m.store.requestData_ k none,
              unsetCbSet old m.store.callbackData_⟩ :=
            StoreInv_doUnsetOld m.store k old hinv hl
          have hfr1 : ∀ k' d',
              List.lookup k' (setEntry m.store.requestData_ k none) =
                some (some d') → d'.id < m.next := by
            intro k' d' hl'
            by_cases hk : k' = k
            · rw [hk, lookup_setEntry_self] at hl'
              simp at hl'
            · rw [lookup_setEntry_ne _ _ hk] at hl'
              exact hfr k' d' hl'
          have hval1 : List.lookup k (setEntry m.store.requestData_ k none) =
              none ∨
              List.lookup k (setEntry m.store.requestData_ k none) =
                some none := Or.inr (lookup_setEntry_self _ _ _)
          have := install_fresh_inv
            ⟨setEntry m.store.requestData_ k none,
              unsetCbSet old m.store.callbackData_⟩ k m.next d hinv1 hval1 hfr1
          exact ⟨this.1, fun k' d' hl' => this.2 k' d' hl'⟩
  | clear k =>
      refine ⟨StoreInv_clearContextData m.store k hinv, ?_⟩
      intro k' d' hl'
      cases hl : List.lookup k m.store.requestData_ with
      | none =>
          simp only [stepOp, clearContextData, hl] at hl'
          exact hfr k' d' hl'
      | some old =>
          have hstate : (clearContextData k m.store).1 =
              ⟨eraseEntry m.store.requestData_ k,
                unsetCbSet old m.store.callbackData_⟩ := by
            cases old with
            | none => simp [clearContextData, hl, unsetCbSet]
            | some dd =>
                by_cases hcb : dd.hasCb <;>
                  simp [clearContextData, hl, unsetCbSet, hcb]
          simp only [stepOp, hstate] at hl'
          by_cases hk : k' = k
          · rw [hk, lookup_eraseEntry_self _ _ hinv.1] at hl'
            simp at hl'
          · rw [lookup_eraseEntry_ne _ hk] at hl'
            exact hfr k' d' hl'
  | shallowCopy =>
      have hstate : stepOp m Op.shallowCopy = ⟨m.store, m.next⟩ := by
        simp only [stepOp, shallowCopyStore_state m.store hinv.1]
      rw [hstate]
      exact ⟨hinv, hfr⟩

/-- The combined invariant holds along every run from the empty store. -/
theorem MInv_runOps (ops : List Op) :
    StoreInv (runOps ops).store ∧ FreshInv (runOps ops) := by
  have hstart : StoreInv (⟨⟨[], []⟩, 0⟩ : MState).store ∧
      FreshInv (⟨⟨[], []⟩, 0⟩ : MState) := by
    constructor
    · refine ⟨List.nodup_nil, ?_, List.Pairwise.nil, ?_⟩
      · intro k1 k2 d1 d2 h1 _ _
        simp [List.lookup] at h1
      · intro i
        simp [List.lookup]
    · intro k dd hdd
      simp [List.lookup] at hdd
  have hrun : ∀ (l : List Op) (m : MState),
      StoreInv m.store ∧ FreshInv m →
      StoreInv (l.foldl stepOp m).store ∧ FreshInv (l.foldl stepOp m) := by
    intro l
    induction l with
    | nil => intro m hm; exact hm
    | cons op ops ih =>
        intro m hm
        exact ih _ (MInv_stepOp m op hm)
  exact hrun ops _ hstart

/-! ### Claim theorems -/

/-- C7: `clearContextData` on an absent key leaves the store unchanged and
fires no callback; consequently (on a store with well-formed, duplicate-free
keys, as `std::map` guarantees) clearing the same key twice in a row leaves
the same observable state as clearing it once, the second clear being a
no-op. -/
theorem C7_theorem (s : State) (val : String)
    (hnd : (s.requestData_.map Prod.fst).Nodup) :
    (List.lookup val s.requestData_ = none → clearContextData val s = (s, [])) ∧
    clearContextData val (clearContextData val s).1 =
      ((clearContextData val s).1, []) := by
  have habs : ∀ t : State, List.lookup val t.requestData_ = none →
      clearContextData val t = (t, []) := by
    intro t h
    simp [clearContextData, h]
  refine ⟨habs s, ?_⟩
  cases hl : List.lookup val s.requestData_ with
  | none => simp [habs s hl]
  | some old =>
      have hgone : List.lookup val (clearContextData val s).1.requestData_ = none := by
        cases old with
        | none =>
            simp only [clearContextData, hl]
            exact lookup_eraseEntry_self _ _ hnd
        | some d =>
            simp only [clearContextData, hl]
            by_cases hcb : d.hasCb <;>
              simp only [hcb, if_true, if_false] <;>
              exact lookup_eraseEntry_self _ _ hnd
      exact habs _ hgone

/-- C7 witness: a concrete store with key "a" present; the theorem applied at
a concrete absent key and the concrete idempotence equation. -/
theorem C7_witness :
    ((((⟨[("a", some ⟨0, true⟩)], [0]⟩ : State)).requestData_.map Prod.fst).Nodup) ∧
    ((List.lookup "z" (⟨[("a", some ⟨0, true⟩)], [0]⟩ : State).requestData_ = none →
        clearContextData "z" (⟨[("a", some ⟨0, true⟩)], [0]⟩ : State) =
          ((⟨[("a", some ⟨0, true⟩)], [0]⟩ : State), [])) ∧
      clearContextData "a"
          (clearContextData "a" (⟨[("a", some ⟨0, true⟩)], [0]⟩ : State)).1 =
        ((clearContextData "a" (⟨[("a", some ⟨0, true⟩)], [0]⟩ : State)).1, [])) :=
  ⟨by decide,
   ⟨(C7_theorem ⟨[("a", some ⟨0, true⟩)], [0]⟩ "z" (by decide)).1,
    (C7_theorem ⟨[("a", some ⟨0, true⟩)], [0]⟩ "a" (by decide)).2⟩⟩

/-- C8: `hasContextData` is exactly key occupancy (an explicit null entry
counts), and `getContextData` returns null exactly when the key is absent or
its entry is the explicit null marker, otherwise the stored data; a key
explicitly set to null has `has = true` and `get = none`. -/
theorem C8_theorem (s : State) (val : String) :
    (hasContextData val s = true ↔ (List.lookup val s.requestData_).isSome = true) ∧
    (getContextData val s = none ↔
      (List.lookup val s.requestData_ = none ∨
        List.lookup val s.requestData_ = some none)) ∧
    (∀ d, List.lookup val s.requestData_ = some (some d) →
      getContextData val s = some d) ∧
    (List.lookup val s.requestData_ = some none →
      hasContextData val s = true ∧ getContextData val s = none) := by
  cases hl : List.lookup val s.requestData_ with
  | none => simp [hasContextData, getContextData, hl]
  | some sp => cases sp <;> simp [hasContextData, getContextData, hl]

/-- C8 witness: a store holding an explicit null entry at "n" and a real
entry at "a"; the theorem instantiated there. -/
theorem C8_witness :
    (∀ d, List.lookup "n"
        (⟨[("n", none), ("a", some ⟨3, false⟩)], []⟩ : State).requestData_ =
        some (some d) →
      getContextData "n" (⟨[("n", none), ("a", some ⟨3, false⟩)], []⟩ : State) =
        some d) ∧
    (List.lookup "n"
        (⟨[("n", none), ("a", some ⟨3, false⟩)], []⟩ : State).requestData_ =
        some none →
      hasContextData "n" (⟨[("n", none), ("a", some ⟨3, false⟩)], []⟩ : State) = true ∧
      getContextData "n" (⟨[("n", none), ("a", some ⟨3, false⟩)], []⟩ : State) = none) :=
  ⟨(C8_theorem ⟨[("n", none), ("a", some ⟨3, false⟩)], []⟩ "n").2.2.1,
   (C8_theorem ⟨[("n", none), ("a", some ⟨3, false⟩)], []⟩ "n").2.2.2⟩

/-- C9: `setContext` with a new context identical (by pointer identity,
including both-null) to the installed one returns it unchanged, writes
nothing, and fires zero callbacks. -/
theorem C9_theorem (newCtx slot : Option Ctx) (h : optId newCtx = optId slot) :
    setContext newCtx slot = (newCtx, slot, []) := by
  simp [setContext, h]

/-- C9 witness: switching to the very context that is installed. -/
theorem C9_witness :
    optId (some ⟨7, ⟨[], [1]⟩⟩) = optId (some ⟨7, ⟨[], [1]⟩⟩) ∧
    setContext (some ⟨7, ⟨[], [1]⟩⟩) (some ⟨7, ⟨[], [1]⟩⟩) =
      (some ⟨7, ⟨[], [1]⟩⟩, some ⟨7, ⟨[], [1]⟩⟩, []) :=
  ⟨rfl, C9_theorem (some ⟨7, ⟨[], [1]⟩⟩) (some ⟨7, ⟨[], [1]⟩⟩) rfl⟩

/-- C10: `RequestContext::get` on an empty slot returns the process-wide
default context (the same one on every call, since `rcGet` is a function of
the slot), does not install it (the slot is unchanged by the call), and a
later `setContext` still behaves exactly as with no current context. -/
theorem C10_theorem :
    (rcGet none).1 = defaultContext ∧
    (rcGet none).2 = none ∧
    (∀ slot : Option Ctx, (rcGet slot).2 = slot) ∧
    (∀ newCtx : Option Ctx,
      setContext newCtx (rcGet none).2 = setContext newCtx none) := by
  refine ⟨rfl, rfl, ?_, fun _ => rfl⟩
  intro slot
  cases slot <;> rfl

/-- C2: `setContextDataIfAbsent` on an occupied key (explicit null included)
reports false and changes nothing, firing nothing on the passed data; on an
absent key it installs the data, registering its callback and firing `onSet`
exactly once when it has one, and reports true. -/
theorem C2_theorem (s : State) (val : String) (data : Option RData) :
    ((List.lookup val s.requestData_).isSome = true →
      setContextDataIfAbsent val data s = (false, s, [])) ∧
    (List.lookup val s.requestData_ = none →
      setContextDataIfAbsent val data s =
        (true,
         ⟨setEntry s.requestData_ val data,
          installCbSet data s.callbackData_⟩,
         installEvents data)) := by
  constructor
  · intro h
    rw [Option.isSome_iff_exists] at h
    obtain ⟨old, hl⟩ := h
    simp [setContextDataIfAbsent, doSetContextData, hl]
  · intro hl
    cases data with
    | none =>
        simp [setContextDataIfAbsent, doSetContextData, doInstall, hl,
          installCbSet, installEvents]
    | some d =>
        by_cases hcb : d.hasCb <;>
          simp [setContextDataIfAbsent, doSetContextData, doInstall, hl,
            installCbSet, installEvents, hcb]

/-- C2 witness: the spec's end-to-end scenario.  On a fresh store
`setIfAbsent "k" D1` installs and reports true (theorem part two); on the
resulting store `setIfAbsent "k" D2` reports false and leaves it unchanged
(theorem part one); `get "k"` still returns D1. -/
theorem C2_witness :
    (List.lookup "k" (State.mk [] []).requestData_ = none →
      setContextDataIfAbsent "k" (some ⟨0, true⟩) (State.mk [] []) =
        (true,
         ⟨setEntry (State.mk [] []).requestData_ "k" (some ⟨0, true⟩),
          installCbSet (some ⟨0, true⟩) (State.mk [] []).callbackData_⟩,
         installEvents (some ⟨0, true⟩))) ∧
    ((List.lookup "k"
        (State.mk [("k", some ⟨0, true⟩)] [0]).requestData_).isSome = true →
      setContextDataIfAbsent "k" (some ⟨1, true⟩)
          (State.mk [("k", some ⟨0, true⟩)] [0]) =
        (false, State.mk [("k", some ⟨0, true⟩)] [0], [])) ∧
    getContextData "k" (State.mk [("k", some ⟨0, true⟩)] [0]) = some ⟨0, true⟩ :=
  ⟨(C2_theorem (State.mk [] []) "k" (some ⟨0, true⟩)).2,
   (C2_theorem (State.mk [("k", some ⟨0, true⟩)] [0]) "k" (some ⟨1, true⟩)).1,
   by decide⟩

/-- C1 refuted at a concrete input: on a store where "k" is already present,
`setContextData` resets the slot to the explicit null marker and discards
the new data, while `overwriteContextData` installs it — the two leave
observably different stores, so they do not differ only in the advisory
warning. -/
theorem C1_counterexample :
    setContextData "k" (some ⟨1, false⟩) ⟨[("k", some ⟨0, false⟩)], []⟩ ≠
      overwriteContextData "k" (some ⟨1, false⟩) ⟨[("k", some ⟨0, false⟩)], []⟩ := by
  decide

/-- C1 amended: when the key is absent the two operations are observably
identical (same store, same events; they differ only in the advisory
warning).  When the key is present, both first fire `onUnset` on a
callback-bearing old value and drop it from `callbackData_`; but
`setContextData` then leaves the key at the explicit null marker without
installing the new data (its `onSet` never fires), while
`overwriteContextData` installs the new data, registering its callback and
firing its `onSet`. -/
theorem C1_theorem (s : State) (val : String) (data : Option RData) :
    (List.lookup val s.requestData_ = none →
      setContextData val data s = overwriteContextData val data s) ∧
    (∀ old, List.lookup val s.requestData_ = some old →
      setContextData val data s =
        (⟨setEntry s.requestData_ val none, unsetCbSet old s.callbackData_⟩,
         unsetEvents old) ∧
      overwriteContextData val data s =
        (⟨setEntry s.requestData_ val data,
          installCbSet data (unsetCbSet old s.callbackData_)⟩,
         unsetEvents old ++ installEvents data)) := by
  constructor
  · intro hl
    simp [setContextData, overwriteContextData, doSetContextData, hl]
  · intro old hl
    cases old with
    | none =>
        constructor
        · simp [setContextData, doSetContextData, doUnsetOld, hl,
            unsetCbSet, unsetEvents, setEntry_of_lookup_eq hl]
        · cases data with
          | none =>
              simp [overwriteContextData, doSetContextData, doUnsetOld,
                doInstall, hl, unsetCbSet, unsetEvents, installCbSet,
                installEvents, setEntry_setEntry]
          | some e =>
              by_cases hcb : e.hasCb <;>
                simp [overwriteContextData, doSetContextData, doUnsetOld,
                  doInstall, hl, unsetCbSet, unsetEvents, installCbSet,
                  installEvents, hcb, setEntry_setEntry]
    | some d =>
        constructor
        · by_cases hcb : d.hasCb <;>
            simp [setContextData, doSetContextData, doUnsetOld, hl,
              unsetCbSet, unsetEvents, hcb]
        · cases data with
          | none =>
              by_cases hcb : d.hasCb <;>
                simp [overwriteContextData, doSetContextData, doUnsetOld,
                  doInstall, hl, unsetCbSet, unsetEvents, installCbSet,
                  installEvents, hcb, setEntry_setEntry]
          | some e =>
              by_cases hcb : d.hasCb <;> by_cases hcb2 : e.hasCb <;>
                simp [overwriteContextData, doSetContextData, doUnsetOld,
                  doInstall, hl, unsetCbSet, unsetEvents, installCbSet,
                  installEvents, hcb, hcb2, setEntry_setEntry]

/-! ### Reference-count lemmas -/

theorem validRels_assertsOk (t : List RcOp) : ∀ a r : Nat, r ≤ a →
    validRelsFrom a r t = true → rcAssertsOk ((a : Int) - (r : Int)) t = true := by
  induction t with
  | nil => intro a r _ _; rfl
  | cons x t ih =>
      intro a r hle hv
      cases x with
      | acq =>
          rw [validRelsFrom] at hv
          have h0 : (0 : Int) ≤ (a : Int) - (r : Int) := by
            have := hle
            omega
          have hrec := ih (a + 1) r (le_trans hle (Nat.le_succ a)) hv
          have hcast : ((a : Int) - (r : Int)) + 1 =
              ((a + 1 : Nat) : Int) - (r : Int) := by push_cast; ring
          rw [rcAssertsOk, decide_eq_true h0, Bool.true_and, hcast]
          exact hrec
      | rel =>
          rw [validRelsFrom, Bool.and_eq_true, decide_eq_true_eq] at hv
          have h0 : (0 : Int) < (a : Int) - (r : Int) := by
            have := hv.1
            omega
          have hrec := ih a (r + 1) hv.1 hv.2
          have hcast : ((a : Int) - (r : Int)) - 1 =
              (a : Int) - ((r + 1 : Nat) : Int) := by push_cast; ring
          rw [rcAssertsOk, decide_eq_true h0, Bool.true_and, hcast]
          exact hrec

/-- Along a trace obeying the spec's §4.1 discipline (every operation taken
while the counter is positive), the run never underflows; it performs
exactly one destruction when the trace drains the counter to zero (which
can only happen at its very last operation) and none otherwise. -/
theorem rcValid_run (t : List RcOp) : ∀ (c : Nat) (dc : Nat), 1 ≤ c →
    rcValidFrom c t = true →
    (rcRunFrom (c : Int) dc t).1 = (natCounterAfter c t : Int) ∧
    (natCounterAfter c t = 0 → (rcRunFrom (c : Int) dc t).2 = dc + 1) ∧
    (1 ≤ natCounterAfter c t → (rcRunFrom (c : Int) dc t).2 = dc) := by
  induction t with
  | nil =>
      intro c dc hc _
      refine ⟨rfl, ?_, fun _ => rfl⟩
      intro h0
      rw [natCounterAfter] at h0
      exfalso
      omega
  | cons x t ih =>
      intro c dc hc hv
      cases x with
      | acq =>
          rw [rcValidFrom, Bool.and_eq_true, decide_eq_true_eq] at hv
          have hcast : (c : Int) + 1 = ((c + 1 : Nat) : Int) := by push_cast; ring
          rw [rcRunFrom, natCounterAfter, hcast]
          exact ih (c + 1) dc (by omega) hv.2
      | rel =>
          rw [rcValidFrom, Bool.and_eq_true, decide_eq_true_eq] at hv
          by_cases hone : c = 1
          · subst hone
            cases t with
            | nil =>
                simp [rcRunFrom, natCounterAfter]
            | cons y t' =>
                exfalso
                cases y <;> simp [rcValidFrom] at hv
          · have hge : 2 ≤ c := by omega
            have hcast : (c : Int) - 1 = ((c - 1 : Nat) : Int) := by
              omega
            rw [rcRunFrom, natCounterAfter, if_neg (by omega : ¬(c : Int) = 1), hcast]
            exact ih (c - 1) dc (by omega) hv.2

theorem rcValidFrom_append (pre : List RcOp) : ∀ (suf : List RcOp) (c : Nat),
    rcValidFrom c (pre ++ suf) =
      (rcValidFrom c pre && rcValidFrom (natCounterAfter c pre) suf) := by
  induction pre with
  | nil => intro suf c; simp [rcValidFrom, natCounterAfter]
  | cons x pre ih =>
      intro suf c
      cases x with
      | acq =>
          simp only [List.cons_append, rcValidFrom, natCounterAfter,
            List.append_eq, ih, Bool.and_assoc]
      | rel =>
          simp only [List.cons_append, rcValidFrom, natCounterAfter,
            List.append_eq, ih, Bool.and_assoc]

/-- C4: `setShallowCopyContext` builds a child whose `callbackData_` is a
copy of the parent's (same object identities) and whose `requestData_` maps
every key of the parent to the identical value (same underlying object, or
the null marker where the parent holds null), performing one
reference-count acquisition per non-null parent entry; it installs the
child without firing any callback and returns the previous (parent)
context. -/
theorem C4_theorem (parent : Ctx) (freshId : Nat)
    (hnd : (parent.st.requestData_.map Prod.fst).Nodup) :
    (setShallowCopyContext freshId (some parent)).1 = some parent ∧
    (setShallowCopyContext freshId (some parent)).2.2.1 = [] ∧
    ∃ child : Ctx,
      (setShallowCopyContext freshId (some parent)).2.1 = some child ∧
      child.st.callbackData_ = parent.st.callbackData_ ∧
      (∀ k, List.lookup k child.st.requestData_ =
        List.lookup k parent.st.requestData_) ∧
      (setShallowCopyContext freshId (some parent)).2.2.2 =
        parent.st.requestData_.filterMap (fun p => p.2.map RData.id) := by
  refine ⟨rfl, rfl, ⟨freshId, (shallowCopyStore parent.st).1⟩, rfl, ?_, ?_, rfl⟩
  · rw [shallowCopyStore_state parent.st hnd]
  · rw [shallowCopyStore_state parent.st hnd]
    intro k
    rfl

/-- C4 witness: a parent with a real entry at "a" and an explicit null at
"b"; the copy shares identity 5, acquires one reference on it, fires
nothing, and returns the parent. -/
theorem C4_witness :
    ((((Ctx.mk 1 ⟨[("a", some ⟨5, true⟩), ("b", none)], [5]⟩)).st.requestData_.map
        Prod.fst).Nodup) ∧
    ((setShallowCopyContext 2
        (some (Ctx.mk 1 ⟨[("a", some ⟨5, true⟩), ("b", none)], [5]⟩))).1 =
      some (Ctx.mk 1 ⟨[("a", some ⟨5, true⟩), ("b", none)], [5]⟩) ∧
    (setShallowCopyContext 2
        (some (Ctx.mk 1 ⟨[("a", some ⟨5, true⟩), ("b", none)], [5]⟩))).2.2.1 = [] ∧
    ∃ child : Ctx,
      (setShallowCopyContext 2
          (some (Ctx.mk 1 ⟨[("a", some ⟨5, true⟩), ("b", none)], [5]⟩))).2.1 =
        some child ∧
      child.st.callbackData_ =
        (Ctx.mk 1 ⟨[("a", some ⟨5, true⟩), ("b", none)], [5]⟩).st.callbackData_ ∧
      (∀ k, List.lookup k child.st.requestData_ =
        List.lookup k
          (Ctx.mk 1 ⟨[("a", some ⟨5, true⟩), ("b", none)], [5]⟩).st.requestData_) ∧
      (setShallowCopyContext 2
          (some (Ctx.mk 1 ⟨[("a", some ⟨5, true⟩), ("b", none)], [5]⟩))).2.2.2 =
        (Ctx.mk 1 ⟨[("a", some ⟨5, true⟩), ("b", none)],
          [5]⟩).st.requestData_.filterMap (fun p => p.2.map RData.id)) :=
  ⟨by decide,
   C4_theorem (Ctx.mk 1 ⟨[("a", some ⟨5, true⟩), ("b", none)], [5]⟩) 2 (by decide)⟩

/-- On pointer-sorted sets (as `std::set` maintains), the merge walk of
`exec_set_difference` executes exactly on the elements of `d` not in `o`,
in order. -/
theorem execSetDifference_eq (d o : List Nat)
    (hd : List.Pairwise (· < ·) d) (ho : List.Pairwise (· < ·) o) :
    execSetDifference d o = d.filter (fun i => decide (i ∉ o)) := by
  induction d, o using execSetDifference.induct with
  | case1 o => simp [execSetDifference]
  | case2 x ds ih =>
      rw [execSetDifference, ih (hd.sublist (List.sublist_cons_self x ds)) ho]
      simp [List.filter_cons]
  | case3 x ds y os hxy ih =>
      rw [execSetDifference]
      simp only [hxy, if_true]
      have hxmem : x ∉ y :: os := by
        intro hmem
        rcases List.mem_cons.mp hmem with rfl | hmem'
        · exact lt_irrefl x hxy
        · exact lt_irrefl x (hxy.trans (List.rel_of_pairwise_cons ho hmem'))
      rw [List.filter_cons_of_pos (by simpa using hxmem)]
      rw [ih (hd.sublist (List.sublist_cons_self x ds)) ho]
  | case4 x ds y os hxy hyx ih =>
      rw [execSetDifference]
      simp only [hxy, if_false, hyx, if_true]
      rw [ih hd (ho.sublist (List.sublist_cons_self y os))]
      refine (List.filter_congr ?_).symm
      intro z hz
      have hzgty : y < z := by
        rcases List.mem_cons.mp hz with rfl | hz'
        · exact hyx
        · exact hyx.trans (List.rel_of_pairwise_cons hd hz')
      simp only [decide_eq_decide, List.mem_cons, not_or]
      constructor
      · intro h; exact h.2
      · intro h; exact ⟨fun he => lt_irrefl y (he ▸ hzgty), h⟩
  | case5 x ds y os hxy hyx ih =>
      have hxy2 : x = y := le_antisymm (not_lt.mp hyx) (not_lt.mp hxy)
      subst hxy2
      rw [execSetDifference]
      simp only [hxy, if_false, hyx, if_false]
      rw [List.filter_cons_of_neg (by simp)]
      rw [ih (hd.sublist (List.sublist_cons_self x ds))
        (ho.sublist (List.sublist_cons_self x os))]
      refine (List.filter_congr ?_).symm
      intro z hz
      have hzgtx : x < z := List.rel_of_pairwise_cons hd hz
      simp only [decide_eq_decide, List.mem_cons, not_or]
      constructor
      · intro h; exact h.2
      · intro h; exact ⟨fun he => lt_irrefl x (he ▸ hzgtx), h⟩

theorem count_trace_unset (u v : List Nat) (i : Nat) :
    ((u.map Event.unset) ++ [Event.install] ++ (v.map Event.set)).count
      (Event.unset i) = u.count i := by
  have hinj : Function.Injective Event.unset := fun a b h => by
    cases h; rfl
  rw [List.count_append, List.count_append, List.count_map_of_injective _ _ hinj]
  have h1 : (List.count (Event.unset i) [Event.install]) = 0 :=
    List.count_eq_zero_of_not_mem (by simp)
  have h2 : (List.count (Event.unset i) (v.map Event.set)) = 0 :=
    List.count_eq_zero_of_not_mem (by simp)
  omega

theorem count_trace_set (u v : List Nat) (i : Nat) :
    ((u.map Event.unset) ++ [Event.install] ++ (v.map Event.set)).count
      (Event.set i) = v.count i := by
  have hinj : Function.Injective Event.set := fun a b h => by
    cases h; rfl
  rw [List.count_append, List.count_append, List.count_map_of_injective _ _ hinj]
  have h1 : (List.count (Event.set i) [Event.install]) = 0 :=
    List.count_eq_zero_of_not_mem (by simp)
  have h2 : (List.count (Event.set i) (u.map Event.unset)) = 0 :=
    List.count_eq_zero_of_not_mem (by simp)
  omega

/-- C3: switching from installed context A to a distinct non-null context B
produces exactly the trace: `onUnset` once on each callback entry of A not
in B (all before the slot write), the slot write, then `onSet` once on each
callback entry of B not in A (all after the slot write); entries present in
both callback sets receive no callback at all. -/
theorem C3_theorem (A B : Ctx)
    (hA : List.Pairwise (· < ·) A.st.callbackData_)
    (hB : List.Pairwise (· < ·) B.st.callbackData_)
    (hne : A.id ≠ B.id) :
    (setContext (some B) (some A)).2.2 =
        (A.st.callbackData_.filter
            (fun i => decide (i ∉ B.st.callbackData_))).map Event.unset
          ++ [Event.install]
          ++ (B.st.callbackData_.filter
              (fun i => decide (i ∉ A.st.callbackData_))).map Event.set ∧
    (setContext (some B) (some A)).2.1 = some B ∧
    (setContext (some B) (some A)).1 = some A ∧
    (∀ i, i ∈ A.st.callbackData_ → i ∉ B.st.callbackData_ →
      (setContext (some B) (some A)).2.2.count (Event.unset i) = 1 ∧
      (setContext (some B) (some A)).2.2.count (Event.set i) = 0) ∧
    (∀ i, i ∈ B.st.callbackData_ → i ∉ A.st.callbackData_ →
      (setContext (some B) (some A)).2.2.count (Event.set i) = 1 ∧
      (setContext (some B) (some A)).2.2.count (Event.unset i) = 0) ∧
    (∀ i, i ∈ A.st.callbackData_ → i ∈ B.st.callbackData_ →
      (setContext (some B) (some A)).2.2.count (Event.unset i) = 0 ∧
      (setContext (some B) (some A)).2.2.count (Event.set i) = 0) := by
  have hguard : optId (some B) ≠ optId (some A) := by
    simp only [optId, Option.map_some]
    intro h
    exact hne (Option.some.injEq _ _ ▸ (by simpa using h.symm))
  have hsc : setContext (some B) (some A) =
      (some A, some B,
       (execSetDifference A.st.callbackData_ B.st.callbackData_).map Event.unset
         ++ [Event.install]
         ++ (execSetDifference B.st.callbackData_ A.st.callbackData_).map Event.set) := by
    simp [setContext, hguard]
  rw [hsc, execSetDifference_eq _ _ hA hB, execSetDifference_eq _ _ hB hA]
  refine ⟨rfl, rfl, rfl, ?_, ?_, ?_⟩
  · intro i hiA hiB
    constructor
    · rw [count_trace_unset]
      rw [List.count_filter (by simpa using hiB)]
      exact List.count_eq_one_of_mem (pairwise_lt_nodup hA) hiA
    · rw [count_trace_set]
      refine List.count_eq_zero_of_not_mem ?_
      intro hmem
      exact (by simpa using (List.mem_filter.mp hmem).2 : i ∉ A.st.callbackData_) hiA
  · intro i hiB hiA
    constructor
    · rw [count_trace_set]
      rw [List.count_filter (by simpa using hiA)]
      exact List.count_eq_one_of_mem (pairwise_lt_nodup hB) hiB
    · rw [count_trace_unset]
      refine List.count_eq_zero_of_not_mem ?_
      intro hmem
      exact (by simpa using (List.mem_filter.mp hmem).2 : i ∉ B.st.callbackData_) hiB
  · intro i hiA hiB
    constructor
    · rw [count_trace_unset]
      refine List.count_eq_zero_of_not_mem ?_
      intro hmem
      exact (by simpa using (List.mem_filter.mp hmem).2 : i ∉ B.st.callbackData_) hiB
    · rw [count_trace_set]
      refine List.count_eq_zero_of_not_mem ?_
      intro hmem
      exact (by simpa using (List.mem_filter.mp hmem).2 : i ∉ A.st.callbackData_) hiA

/-- C3 witness: contexts with callback sets {1, 3} and {2, 3}: the switch
fires `onUnset 1` before the install, `onSet 2` after it, and nothing on the
shared entry 3. -/
theorem C3_witness :
    List.Pairwise (· < ·) (Ctx.mk 1 ⟨[], [1, 3]⟩).st.callbackData_ ∧
    List.Pairwise (· < ·) (Ctx.mk 2 ⟨[], [2, 3]⟩).st.callbackData_ ∧
    (Ctx.mk 1 ⟨[], [1, 3]⟩).id ≠ (Ctx.mk 2 ⟨[], [2, 3]⟩).id ∧
    ((setContext (some (Ctx.mk 2 ⟨[], [2, 3]⟩)) (some (Ctx.mk 1 ⟨[], [1, 3]⟩))).2.2 =
        ((Ctx.mk 1 ⟨[], [1, 3]⟩).st.callbackData_.filter
            (fun i => decide (i ∉ (Ctx.mk 2 ⟨[], [2, 3]⟩).st.callbackData_))).map Event.unset
          ++ [Event.install]
          ++ ((Ctx.mk 2 ⟨[], [2, 3]⟩).st.callbackData_.filter
              (fun i => decide (i ∉ (Ctx.mk 1 ⟨[], [1, 3]⟩).st.callbackData_))).map Event.set ∧
      (setContext (some (Ctx.mk 2 ⟨[], [2, 3]⟩)) (some (Ctx.mk 1 ⟨[], [1, 3]⟩))).2.1 =
        some (Ctx.mk 2 ⟨[], [2, 3]⟩) ∧
      (setContext (some (Ctx.mk 2 ⟨[], [2, 3]⟩)) (some (Ctx.mk 1 ⟨[], [1, 3]⟩))).1 =
        some (Ctx.mk 1 ⟨[], [1, 3]⟩) ∧
      (∀ i, i ∈ (Ctx.mk 1 ⟨[], [1, 3]⟩).st.callbackData_ →
        i ∉ (Ctx.mk 2 ⟨[], [2, 3]⟩).st.callbackData_ →
        (setContext (some (Ctx.mk 2 ⟨[], [2, 3]⟩)) (some (Ctx.mk 1 ⟨[], [1, 3]⟩))).2.2.count
            (Event.unset i) = 1 ∧
        (setContext (some (Ctx.mk 2 ⟨[], [2, 3]⟩)) (some (Ctx.mk 1 ⟨[], [1, 3]⟩))).2.2.count
            (Event.set i) = 0) ∧
      (∀ i, i ∈ (Ctx.mk 2 ⟨[], [2, 3]⟩).st.callbackData_ →
        i ∉ (Ctx.mk 1 ⟨[], [1, 3]⟩).st.callbackData_ →
        (setContext (some (Ctx.mk 2 ⟨[], [2, 3]⟩)) (some (Ctx.mk 1 ⟨[], [1, 3]⟩))).2.2.count
            (Event.set i) = 1 ∧
        (setContext (some (Ctx.mk 2 ⟨[], [2, 3]⟩)) (some (Ctx.mk 1 ⟨[], [1, 3]⟩))).2.2.count
            (Event.unset i) = 0) ∧
      (∀ i, i ∈ (Ctx.mk 1 ⟨[], [1, 3]⟩).st.callbackData_ →
        i ∈ (Ctx.mk 2 ⟨[], [2, 3]⟩).st.callbackData_ →
        (setContext (some (Ctx.mk 2 ⟨[], [2, 3]⟩)) (some (Ctx.mk 1 ⟨[], [1, 3]⟩))).2.2.count
            (Event.unset i) = 0 ∧
        (setContext (some (Ctx.mk 2 ⟨[], [2, 3]⟩)) (some (Ctx.mk 1 ⟨[], [1, 3]⟩))).2.2.count
            (Event.set i) = 0)) :=
  ⟨by decide, by decide, by decide,
   C3_theorem (Ctx.mk 1 ⟨[], [1, 3]⟩) (Ctx.mk 2 ⟨[], [2, 3]⟩)
     (by decide) (by decide) (by decide)⟩

/-- C1 witness: the amended claim instantiated on a concrete store with "k"
present and holding a callback-bearing value. -/
theorem C1_witness :
    List.lookup "k" (State.mk [("k", some ⟨0, true⟩)] [0]).requestData_ =
      some (some ⟨0, true⟩) ∧
    (setContextData "k" (some ⟨1, true⟩) (State.mk [("k", some ⟨0, true⟩)] [0]) =
        (⟨setEntry (State.mk [("k", some ⟨0, true⟩)] [0]).requestData_ "k" none,
          unsetCbSet (some ⟨0, true⟩)
            (State.mk [("k", some ⟨0, true⟩)] [0]).callbackData_⟩,
         unsetEvents (some ⟨0, true⟩)) ∧
      overwriteContextData "k" (some ⟨1, true⟩)
          (State.mk [("k", some ⟨0, true⟩)] [0]) =
        (⟨setEntry (State.mk [("k", some ⟨0, true⟩)] [0]).requestData_ "k"
            (some ⟨1, true⟩),
          installCbSet (some ⟨1, true⟩)
            (unsetCbSet (some ⟨0, true⟩)
              (State.mk [("k", some ⟨0, true⟩)] [0]).callbackData_)⟩,
         unsetEvents (some ⟨0, true⟩) ++ installEvents (some ⟨1, true⟩))) :=
  ⟨by decide,
   (C1_theorem (State.mk [("k", some ⟨0, true⟩)] [0]) "k" (some ⟨1, true⟩)).2
     (some ⟨0, true⟩) (by decide)⟩

/-- C6 refuted: the trace acquire, release, acquire, release starting from a
counter of zero satisfies the claim's precondition (before each release
there are strictly more acquires than prior releases), yet both releases
see a pre-decrement counter of exactly 1 and the object is destroyed twice,
not exactly once. -/
theorem C6_counterexample :
    validRelsFrom 0 0 [RcOp.acq, RcOp.rel, RcOp.acq, RcOp.rel] = true ∧
    (rcRunFrom 0 0 [RcOp.acq, RcOp.rel, RcOp.acq, RcOp.rel]).2 = 2 := by
  constructor
  · rfl
  · rfl

/-- C6 amended: under the claim's precondition the `DCHECK`s never fail
(the counter is positive before every decrement and non-negative before
every increment).  Destruction-exactly-once needs the spec's §4.1 ownership
discipline: after the construction-time acquire, every further operation
happens while the counter is still positive, and the trace releases every
reference (counter zero at the end).  Then the object is destroyed exactly
once — at the final release, the only one whose pre-decrement counter is 1
— and at no earlier point. -/
theorem C6_theorem (t rest : List RcOp)
    (hpre : validRelsFrom 0 0 t = true)
    (hv : rcValidFrom 1 rest = true)
    (hz : natCounterAfter 1 rest = 0) :
    rcAssertsOk 0 t = true ∧
    rest ≠ [] ∧
    (rcRunFrom 0 0 (RcOp.acq :: rest)).2 = 1 ∧
    (∀ pre suf, rest = pre ++ suf → suf ≠ [] →
      (rcRunFrom 0 0 (RcOp.acq :: pre)).2 = 0) := by
  refine ⟨?_, ?_, ?_, ?_⟩
  · have h := validRels_assertsOk t 0 0 le_rfl hpre
    simpa using h
  · intro he
    rw [he, natCounterAfter] at hz
    omega
  · have h := (rcValid_run rest 1 0 le_rfl hv).2.1 hz
    simpa [rcRunFrom] using h
  · intro pre suf hsplit hne
    have hvp := hv
    rw [hsplit, rcValidFrom_append pre suf 1, Bool.and_eq_true] at hvp
    have hc1 : 1 ≤ natCounterAfter 1 pre := by
      cases suf with
      | nil => exact absurd rfl hne
      | cons y suf' =>
          cases y <;>
            rw [rcValidFrom, Bool.and_eq_true, decide_eq_true_eq] at hvp <;>
            exact hvp.2.1
    have h := (rcValid_run pre 1 0 le_rfl hvp.1).2.2 hc1
    simpa [rcRunFrom] using h

/-- C6 witness: a single construction-time acquire followed by a single
complete release destroys the object exactly once. -/
theorem C6_witness :
    validRelsFrom 0 0 [RcOp.acq] = true ∧
    rcValidFrom 1 [RcOp.rel] = true ∧
    natCounterAfter 1 [RcOp.rel] = 0 ∧
    (rcAssertsOk 0 [RcOp.acq] = true ∧
      [RcOp.rel] ≠ ([] : List RcOp) ∧
      (rcRunFrom 0 0 (RcOp.acq :: [RcOp.rel])).2 = 1 ∧
      (∀ pre suf, [RcOp.rel] = pre ++ suf → suf ≠ [] →
        (rcRunFrom 0 0 (RcOp.acq :: pre)).2 = 0)) :=
  ⟨rfl, rfl, rfl, C6_theorem [RcOp.acq] [RcOp.rel] rfl rfl rfl⟩

/-- C5: every store reachable from the empty store by any sequence of the
public operations (`setContextData`, `setContextDataIfAbsent`,
`overwriteContextData`, `clearContextData`, `setShallowCopyContext`, each
constructing a brand-new payload object) satisfies the derived-index
invariant: `callbackData_` is exactly the identities of the non-null
callback-bearing values of `requestData_`, pointer-sorted with no
duplicates, no identity under two keys, and no stale identity after a
removal or overwrite; the store built by a further shallow copy satisfies
it as well. -/
theorem C5_theorem (ops : List Op) :
    StoreInv (runOps ops).store ∧
    StoreInv (shallowCopyStore (runOps ops).store).1 := by
  have h := MInv_runOps ops
  refine ⟨h.1, ?_⟩
  rw [shallowCopyStore_state _ h.1.1]
  exact h.1

end Folly
